import Mathlib

/-!
Shallow embedding of the verman version manager core
(internal/sources/source.go, internal/version/detect.go,
internal/version/download.go) and proofs about its
version-resolution, download-retry, install, activation and
detection behaviour.

Strings are modelled by Lean `String`, with the Go `strings`
package primitives re-implemented at the character-list level so
that every definition evaluates inside the kernel.  The inputs
involved (version numbers, hex digests, file names) are ASCII, so
the ASCII fragment of `strings.ToLower` / `strings.TrimSpace`
is what the embedding implements.
-/

namespace Verman

/-- ASCII case folding of one character (`strings.ToLower`, ASCII range). -/
def lowerChar (c : Char) : Char :=
  if 65 ≤ c.toNat ∧ c.toNat ≤ 90 then Char.ofNat (c.toNat + 32) else c

/-- `strings.ToLower` on ASCII data. -/
def toLowerStr (s : String) : String := String.mk (s.data.map lowerChar)

/-- ASCII whitespace, as trimmed by `strings.TrimSpace`. -/
def isSpaceChar (c : Char) : Bool :=
  c == ' ' || c == '\t' || c == '\n' || c == '\x0b' || c == '\x0c' || c == '\r'

/-- `strings.TrimSpace` on ASCII data: drop whitespace from both ends. -/
def trimStr (s : String) : String :=
  String.mk (((s.data.dropWhile isSpaceChar).reverse.dropWhile isSpaceChar).reverse)

/-- `strings.HasPrefix s pre`. -/
def hasPfx (s pre : String) : Bool := pre.data.isPrefixOf s.data

/-- `strings.TrimPrefix s pre`. -/
def trimPfx (s pre : String) : String :=
  if pre.data.isPrefixOf s.data then String.mk (s.data.drop pre.data.length) else s

/-- `strings.HasSuffix s sfx`. -/
def hasSfx (s sfx : String) : Bool := sfx.data.reverse.isPrefixOf s.data.reverse

/-- `strings.TrimSuffix s sfx`. -/
def trimSfx (s sfx : String) : String :=
  if sfx.data.reverse.isPrefixOf s.data.reverse then
    String.mk ((s.data.reverse.drop sfx.data.length).reverse)
  else s

/-- Helper for `strings.Contains`: does `sub` occur inside `l`? -/
def containsSub (sub : List Char) : List Char → Bool
  | [] => sub.isEmpty
  | a :: t => sub.isPrefixOf (a :: t) || containsSub sub t

/-- `strings.Contains s sub`. -/
def containsStr (s sub : String) : Bool := containsSub sub.data s.data

/-- Helper for `strings.Split` with a one-character separator. -/
def splitCharL (sep : Char) : List Char → List (List Char)
  | [] => [[]]
  | c :: rest =>
    if c == sep then [] :: splitCharL sep rest
    else
      match splitCharL sep rest with
      | [] => [[c]]
      | h :: t => (c :: h) :: t

/-- `strings.Split s "."`. -/
def goSplitDot (s : String) : List String := (splitCharL '.' s.data).map String.mk

/-- Decimal digit test. -/
def isDigitChar (c : Char) : Bool := 48 ≤ c.toNat && c.toNat ≤ 57

/-- Value of a run of decimal digits, most significant first. -/
def natOfDigits (l : List Char) : Nat := l.foldl (fun acc c => acc * 10 + (c.toNat - 48)) 0

/-- Signed decimal scan of the leading part of a character list:
`fmt.Sscanf(s, "%d", &n)` leaves `n = 0` when no integer can be read,
otherwise reads an optional sign and the leading digit run. -/
def scanIntL (l : List Char) : Int :=
  let l := l.dropWhile isSpaceChar
  match l with
  | '-' :: rest =>
    if (rest.takeWhile isDigitChar).isEmpty then 0
    else -(natOfDigits (rest.takeWhile isDigitChar) : Int)
  | '+' :: rest =>
    if (rest.takeWhile isDigitChar).isEmpty then 0
    else (natOfDigits (rest.takeWhile isDigitChar) : Int)
  | _ =>
    if (l.takeWhile isDigitChar).isEmpty then 0
    else (natOfDigits (l.takeWhile isDigitChar) : Int)

/-- `fmt.Sscanf(s, "%d", &n)` as used on version components. -/
def scanInt (s : String) : Int := scanIntL s.data

theorem charToNat_ofNat (n : Nat) (h : n < 55296) : (Char.ofNat n).toNat = n := by
  have hv : n.isValidChar := Or.inl h
  simp only [Char.ofNat, hv, dif_pos, Char.ofNatAux, Char.toNat]
  simp [UInt32.toNat, BitVec.toNat_ofNat]

theorem char_eq_of_toNat_eq {a b : Char} (h : a.toNat = b.toNat) : a = b :=
  Char.ext_iff.mpr (UInt32.ext h)

theorem lowerChar_toNat (c : Char) :
    (lowerChar c).toNat = if 65 ≤ c.toNat ∧ c.toNat ≤ 90 then c.toNat + 32 else c.toNat := by
  unfold lowerChar
  by_cases h : 65 ≤ c.toNat ∧ c.toNat ≤ 90
  · simp [h, charToNat_ofNat _ (by omega : c.toNat + 32 < 55296)]
  · simp [h]

theorem lowerChar_fix {c : Char} (h : ¬ (65 ≤ c.toNat ∧ c.toNat ≤ 90)) : lowerChar c = c := by
  unfold lowerChar
  rw [if_neg h]

theorem lowerChar_idem (c : Char) : lowerChar (lowerChar c) = lowerChar c := by
  by_cases h : 65 ≤ c.toNat ∧ c.toNat ≤ 90
  · apply lowerChar_fix
    rw [lowerChar_toNat, if_pos h]
    omega
  · rw [lowerChar_fix h]
    exact lowerChar_fix h

theorem toLowerStr_idem (s : String) : toLowerStr (toLowerStr s) = toLowerStr s := by
  simp [toLowerStr, List.map_map, Function.comp_def, lowerChar_idem]

theorem isSpace_codes {c : Char} (h : isSpaceChar c = true) :
    c.toNat = 32 ∨ c.toNat = 9 ∨ c.toNat = 10 ∨ c.toNat = 11 ∨ c.toNat = 12 ∨ c.toNat = 13 := by
  simp only [isSpaceChar, Bool.or_eq_true, beq_iff_eq] at h
  rcases h with ((((rfl | rfl) | rfl) | rfl) | rfl) | rfl <;> decide

theorem isSpaceChar_lowerChar (c : Char) : isSpaceChar (lowerChar c) = isSpaceChar c := by
  by_cases hr : 65 ≤ c.toNat ∧ c.toNat ≤ 90
  · have hup : (lowerChar c).toNat = c.toNat + 32 := by rw [lowerChar_toNat, if_pos hr]
    have h1 : isSpaceChar (lowerChar c) = false := by
      cases hsp : isSpaceChar (lowerChar c)
      · rfl
      · exfalso
        have := isSpace_codes hsp
        omega
    have h2 : isSpaceChar c = false := by
      cases hsp : isSpaceChar c
      · rfl
      · exfalso
        have := isSpace_codes hsp
        omega
    rw [h1, h2]
  · rw [lowerChar_fix hr]

/-! ### Version matcher (internal/sources/source.go) -/

/-- `isWildcardVersion` from source.go: after lowercasing, does the
expression end in `.x` or `.*`? -/
def isWildcardVersion (v : String) : Bool :=
  hasSfx (toLowerStr v) ".x" || hasSfx (toLowerStr v) ".*"

/-- `stripWildcard` from source.go: successively trim the suffixes
`.x`, `.X`, `.*`. -/
def stripWildcard (v : String) : String :=
  trimSfx (trimSfx (trimSfx v ".x") ".X") ".*"

/-- `looksLikePartialVersion` from source.go: wildcards are partial,
one dot-separated component is complete, two are partial, three or
more are complete. -/
def looksLikePartialVersion (v : String) : Bool :=
  let v := trimPfx v "v"
  if isWildcardVersion v then true
  else
    let parts := goSplitDot v
    if parts.length == 1 then false
    else if parts.length == 2 then true
    else false

/-- Remaining comparison of the index loop of `compareVersions` once
the left list is exhausted: every left component reads as 0. -/
def negTail : List Int → Int
  | [] => 0
  | b :: bs => if b ≠ 0 then 0 - b else negTail bs

/-- Padded component-wise comparison of the integer values of
version components; first difference decides
(the index loop of `compareVersions`). -/
def cmpNums : List Int → List Int → Int
  | [], bs => negTail bs
  | a :: as, [] => if a ≠ 0 then a - 0 else cmpNums as []
  | a :: as, b :: bs => if a ≠ b then a - b else cmpNums as bs

/-- `compareVersions` from source.go: split on dots, scan each
component with `%d` (non-numeric components scan as 0), compare
component-wise with missing components read as 0. -/
def compareVersions (a b : String) : Int :=
  cmpNums ((goSplitDot a).map scanInt) ((goSplitDot b).map scanInt)

/-- Boolean "sorts before" relation of the descending sort in
`findBestMatch`: `a` comes first when `compareVersions a b ≥ 0`. -/
def vGe (a b : String) : Bool := 0 ≤ compareVersions a b

/-- The primary candidate filter of `findBestMatch`: versions equal to
the stripped expression, or extending it after a `.` or a `-`. -/
def prefixMatches (pat : String) (versions : List String) : List String :=
  versions.filter (fun v => v == pat || hasPfx v (pat ++ ".") || hasPfx v (pat ++ "-"))

/-- The major-version fallback filter of `findBestMatch`: versions whose
first dot-separated component equals the stripped expression. -/
def majorMatches (pat : String) (versions : List String) : List String :=
  versions.filter (fun v => (goSplitDot v).headD "" == pat)

/-- The full candidate selection of `findBestMatch`: prefix matches,
falling back to major-version matches when the expression is dotless
and no prefix match exists. -/
def candidatesOf (pat : String) (versions : List String) : List String :=
  let ms := prefixMatches pat versions
  if ms.isEmpty && !(containsStr pat ".") then majorMatches pat versions else ms

/-- The NotFound error message of `findBestMatch`. -/
def noMatchMsg (origPat : String) : String :=
  "no version found matching " ++ origPat ++ " (available: check with list command)"

/-- Insert into a list sorted descending under `compareVersions`. -/
def insertDesc (x : String) : List String → List String
  | [] => [x]
  | y :: t => if vGe x y then x :: y :: t else y :: insertDesc x t

/-- Sort descending under `compareVersions`.  The Go code sorts the
candidate slice with `sort.Slice` and the comparator
`compareVersions(m[i], m[j]) > 0`; any sort agreeing with that
comparator realises it, and this insertion sort is the one used here. -/
def sortDesc : List String → List String
  | [] => []
  | x :: t => insertDesc x (sortDesc t)

/-- `findBestMatch` from source.go: trim a leading `v`, strip a
wildcard suffix, try an exact catalog match first (unless the original
expression was a wildcard), then collect candidates and return the
highest under `compareVersions`; with no candidates, partial-looking or
wildcard expressions fail and complete-looking expressions pass
through.  The Go code sorts the candidate slice descending and takes
index 0; here the sort is `sortDesc` with the same descending
comparison. -/
def findBestMatch (expr : String) (versions : List String) : Except String String :=
  let p1 := trimPfx expr "v"
  let origPat := p1
  let pat := stripWildcard p1
  match (if isWildcardVersion origPat then none else versions.find? (fun v => v == pat)) with
  | some v => Except.ok v
  | none =>
    match sortDesc (candidatesOf pat versions) with
    | [] =>
      if looksLikePartialVersion origPat || isWildcardVersion origPat then
        Except.error (noMatchMsg origPat)
      else Except.ok pat
    | best :: _ => Except.ok best

theorem negTail_eq : ∀ bs : List Int, negTail bs = -(cmpNums bs []) := by
  intro bs
  induction bs with
  | nil => simp [negTail, cmpNums]
  | cons y t ih =>
    simp only [negTail, cmpNums]
    by_cases h : y ≠ 0
    · rw [if_pos h, if_pos h]; omega
    · rw [if_neg h, if_neg h]; exact ih

theorem cmpNums_refl : ∀ l : List Int, cmpNums l l = 0 := by
  intro l
  induction l with
  | nil => simp [cmpNums, negTail]
  | cons x xs ih => simpa [cmpNums] using ih

theorem cmpNums_neg : ∀ a b : List Int, cmpNums a b = -(cmpNums b a) := by
  intro a
  induction a with
  | nil =>
    intro b
    rw [show cmpNums [] b = negTail b from rfl, negTail_eq]
  | cons x as ih =>
    intro b
    cases b with
    | nil =>
      rw [show cmpNums [] (x :: as) = negTail (x :: as) from rfl]
      simp only [cmpNums, negTail]
      by_cases h : x ≠ 0
      · rw [if_pos h, if_pos h]; omega
      · rw [if_neg h, if_neg h]
        have := negTail_eq as
        omega
    | cons y bs =>
      simp only [cmpNums]
      by_cases h : x = y
      · subst h
        rw [if_neg (by simp), if_neg (by simp)]
        exact ih bs
      · have h2 : y ≠ x := fun e => h e.symm
        rw [if_pos h, if_pos h2]
        omega

theorem cmpNums_append_zero_left : ∀ a b : List Int, cmpNums (a ++ [0]) b = cmpNums a b := by
  intro a
  induction a with
  | nil =>
    intro b
    cases b with
    | nil => simp [cmpNums, negTail]
    | cons y bs =>
      rw [show cmpNums [] (y :: bs) = negTail (y :: bs) from rfl]
      simp only [List.nil_append, cmpNums, negTail]
      by_cases h : y = 0
      · subst h
        simp
      · rw [if_pos (fun e => h e.symm), if_pos h]
  | cons x as ih =>
    intro b
    cases b with
    | nil =>
      simp only [List.cons_append, cmpNums]
      by_cases h : x ≠ 0
      · rw [if_pos h, if_pos h]
      · rw [if_neg h, if_neg h]; exact ih []
    | cons y bs =>
      simp only [List.cons_append, cmpNums]
      by_cases h : x ≠ y
      · rw [if_pos h, if_pos h]
      · rw [if_neg h, if_neg h]; exact ih bs

theorem cmpNums_append_zero_right (a b : List Int) : cmpNums a (b ++ [0]) = cmpNums a b := by
  rw [cmpNums_neg, cmpNums_append_zero_left, ← cmpNums_neg]

theorem cmpNums_pad_left (k : Nat) :
    ∀ a b : List Int, cmpNums (a ++ List.replicate k 0) b = cmpNums a b := by
  induction k with
  | zero => simp
  | succ n ih =>
    intro a b
    have hsplit : a ++ List.replicate (n + 1) 0 = (a ++ [0]) ++ List.replicate n 0 := by
      rw [List.replicate_succ, List.append_assoc]
      rfl
    rw [hsplit, ih, cmpNums_append_zero_left]

theorem cmpNums_pad_right (k : Nat) (a b : List Int) :
    cmpNums a (b ++ List.replicate k 0) = cmpNums a b := by
  rw [cmpNums_neg, cmpNums_pad_left, ← cmpNums_neg]

theorem cmpNums_trans_samelen :
    ∀ a b c : List Int, a.length = b.length → b.length = c.length →
      0 ≤ cmpNums a b → 0 ≤ cmpNums b c → 0 ≤ cmpNums a c := by
  intro a
  induction a with
  | nil =>
    intro b c hab hbc h1 h2
    have hb : b = [] := List.length_eq_zero.mp hab.symm
    subst hb
    have hc : c = [] := List.length_eq_zero.mp hbc.symm
    subst hc
    exact h1
  | cons x as ih =>
    intro b c hab hbc h1 h2
    cases b with
    | nil => simp at hab
    | cons y bs =>
      cases c with
      | nil => simp at hbc
      | cons z cs =>
        simp only [cmpNums] at h1 h2 ⊢
        by_cases hxy : x = y
        · subst hxy
          rw [if_neg (by simp)] at h1
          by_cases hxz : x = z
          · subst hxz
            rw [if_neg (by simp)] at h2 ⊢
            exact ih bs cs (by simpa using hab) (by simpa using hbc) h1 h2
          · rw [if_pos hxz] at h2 ⊢
            exact h2
        · rw [if_pos hxy] at h1
          by_cases hyz : y = z
          · subst hyz
            rw [if_pos hxy]
            exact h1
          · rw [if_pos hyz] at h2
            have hxz : x ≠ z := by omega
            rw [if_pos hxz]
            omega

theorem cmpNums_trans {a b c : List Int}
    (h1 : 0 ≤ cmpNums a b) (h2 : 0 ≤ cmpNums b c) : 0 ≤ cmpNums a c := by
  set n := max a.length (max b.length c.length) with hn
  have ha : a.length ≤ n := le_max_left _ _
  have hb : b.length ≤ n := le_trans (le_max_left _ _) (le_max_right _ _)
  have hc : c.length ≤ n := le_trans (le_max_right _ _) (le_max_right _ _)
  have hla : (a ++ List.replicate (n - a.length) 0).length = n := by
    simp [List.length_append]; omega
  have hlb : (b ++ List.replicate (n - b.length) 0).length = n := by
    simp [List.length_append]; omega
  have hlc : (c ++ List.replicate (n - c.length) 0).length = n := by
    simp [List.length_append]; omega
  have e1 : cmpNums (a ++ List.replicate (n - a.length) 0) (b ++ List.replicate (n - b.length) 0)
      = cmpNums a b := by rw [cmpNums_pad_left, cmpNums_pad_right]
  have e2 : cmpNums (b ++ List.replicate (n - b.length) 0) (c ++ List.replicate (n - c.length) 0)
      = cmpNums b c := by rw [cmpNums_pad_left, cmpNums_pad_right]
  have e3 : cmpNums (a ++ List.replicate (n - a.length) 0) (c ++ List.replicate (n - c.length) 0)
      = cmpNums a c := by rw [cmpNums_pad_left, cmpNums_pad_right]
  rw [← e3]
  exact cmpNums_trans_samelen _ _ _ (hla.trans hlb.symm) (hlb.trans hlc.symm)
    (by rw [e1]; exact h1) (by rw [e2]; exact h2)

theorem vGe_refl (a : String) : vGe a a = true := by
  simp [vGe, compareVersions, cmpNums_refl]

theorem vGe_trans : ∀ a b c : String, vGe a b = true → vGe b c = true → vGe a c = true := by
  intro a b c h1 h2
  simp only [vGe, compareVersions, decide_eq_true_eq] at h1 h2 ⊢
  exact cmpNums_trans h1 h2

theorem vGe_total : ∀ a b : String, (vGe a b || vGe b a) = true := by
  intro a b
  simp only [vGe, compareVersions, Bool.or_eq_true, decide_eq_true_eq]
  have := cmpNums_neg ((goSplitDot a).map scanInt) ((goSplitDot b).map scanInt)
  omega

theorem insertDesc_ne_nil (x : String) : ∀ s : List String, insertDesc x s ≠ [] := by
  intro s
  cases s with
  | nil => simp [insertDesc]
  | cons y t =>
    simp only [insertDesc]
    split <;> simp

theorem sortDesc_eq_nil : ∀ l : List String, sortDesc l = [] → l = [] := by
  intro l h
  cases l with
  | nil => rfl
  | cons x t =>
    exact absurd h (insertDesc_ne_nil x (sortDesc t))

/-- The head of the descending sort in `findBestMatch` is a member of
the candidate list and compares greater-or-equal to every candidate. -/
theorem sortDesc_head : ∀ (l rest : List String) (best : String),
    sortDesc l = best :: rest → best ∈ l ∧ ∀ x ∈ l, vGe best x = true := by
  intro l
  induction l with
  | nil => intro rest best h; exact absurd h (by simp [sortDesc])
  | cons x t ih =>
    intro rest best h
    rw [show sortDesc (x :: t) = insertDesc x (sortDesc t) from rfl] at h
    cases hs : sortDesc t with
    | nil =>
      have ht : t = [] := sortDesc_eq_nil t hs
      rw [hs] at h
      simp only [insertDesc, List.cons.injEq] at h
      obtain ⟨rfl, -⟩ := h
      subst ht
      refine ⟨List.mem_singleton_self x, ?_⟩
      intro z hz
      have hzx : z = x := List.mem_singleton.mp hz
      subst hzx
      exact vGe_refl z
    | cons y s =>
      obtain ⟨hy_mem, hy_max⟩ := ih s y hs
      rw [hs] at h
      simp only [insertDesc] at h
      by_cases hxy : vGe x y = true
      · rw [if_pos hxy] at h
        obtain ⟨rfl, -⟩ := List.cons.injEq .. |>.mp h
        refine ⟨List.mem_cons_self _ _, ?_⟩
        intro z hz
        rcases List.mem_cons.mp hz with rfl | hz
        · exact vGe_refl z
        · exact vGe_trans _ _ _ hxy (hy_max z hz)
      · rw [if_neg hxy] at h
        obtain ⟨rfl, -⟩ := List.cons.injEq .. |>.mp h
        refine ⟨List.mem_cons_of_mem _ hy_mem, ?_⟩
        intro z hz
        rcases List.mem_cons.mp hz with rfl | hz
        · have := vGe_total z y
          rcases Bool.or_eq_true .. |>.mp this with h1 | h1
          · exact absurd h1 hxy
          · exact h1
        · exact hy_max z hz

theorem isPrefixOf_map (f : Char → Char) {p l : List Char} (h : p.isPrefixOf l = true) :
    (p.map f).isPrefixOf (l.map f) = true := by
  rw [List.isPrefixOf_iff_prefix] at h ⊢
  exact h.map f

theorem not_wildcard_parts {v : String} (h : isWildcardVersion v = false) :
    (['x', '.'].isPrefixOf v.data.reverse) = false ∧
    (['X', '.'].isPrefixOf v.data.reverse) = false ∧
    (['*', '.'].isPrefixOf v.data.reverse) = false := by
  simp only [isWildcardVersion, Bool.or_eq_false_iff] at h
  obtain ⟨h1, h2⟩ := h
  rw [show hasSfx (toLowerStr v) ".x"
      = (['x', '.'].isPrefixOf ((v.data.map lowerChar).reverse)) from rfl] at h1
  rw [show hasSfx (toLowerStr v) ".*"
      = (['*', '.'].isPrefixOf ((v.data.map lowerChar).reverse)) from rfl] at h2
  rw [← List.map_reverse] at h1 h2
  refine ⟨?_, ?_, ?_⟩
  · cases hp : ['x', '.'].isPrefixOf v.data.reverse
    · rfl
    · exfalso
      have hm := isPrefixOf_map lowerChar hp
      rw [show ['x', '.'].map lowerChar = ['x', '.'] from by decide] at hm
      rw [hm] at h1
      exact Bool.true_eq_false.mp h1
  · cases hp : ['X', '.'].isPrefixOf v.data.reverse
    · rfl
    · exfalso
      have hm := isPrefixOf_map lowerChar hp
      rw [show ['X', '.'].map lowerChar = ['x', '.'] from by decide] at hm
      rw [hm] at h1
      exact Bool.true_eq_false.mp h1
  · cases hp : ['*', '.'].isPrefixOf v.data.reverse
    · rfl
    · exfalso
      have hm := isPrefixOf_map lowerChar hp
      rw [show ['*', '.'].map lowerChar = ['*', '.'] from by decide] at hm
      rw [hm] at h2
      exact Bool.true_eq_false.mp h2

theorem stripWildcard_of_not_wildcard {v : String} (h : isWildcardVersion v = false) :
    stripWildcard v = v := by
  obtain ⟨h1, h2, h3⟩ := not_wildcard_parts h
  have t1 : trimSfx v ".x" = v := by
    unfold trimSfx
    rw [show ((".x" : String).data.reverse) = ['x', '.'] from by decide, h1]
    simp
  have t2 : trimSfx v ".X" = v := by
    unfold trimSfx
    rw [show ((".X" : String).data.reverse) = ['X', '.'] from by decide, h2]
    simp
  have t3 : trimSfx v ".*" = v := by
    unfold trimSfx
    rw [show ((".*" : String).data.reverse) = ['*', '.'] from by decide, h3]
    simp
  unfold stripWildcard
  rw [t1, t2, t3]

theorem looksLike_eq (v : String) :
    looksLikePartialVersion v =
      (isWildcardVersion (trimPfx v "v")
        || (goSplitDot (trimPfx v "v")).length == 2) := by
  unfold looksLikePartialVersion
  by_cases hw : isWildcardVersion (trimPfx v "v") = true
  · simp [hw]
  · have hw' : isWildcardVersion (trimPfx v "v") = false := by
      revert hw
      cases isWildcardVersion (trimPfx v "v") <;> simp
    by_cases h1 : (goSplitDot (trimPfx v "v")).length = 1
    · simp [hw', h1]
    · by_cases h2 : (goSplitDot (trimPfx v "v")).length = 2
      · simp [hw', h1, h2]
      · simp [hw', h1, h2]

theorem find?_beq_none {pat : String} {L : List String} (h : pat ∉ L) :
    L.find? (fun v => v == pat) = none := by
  rw [List.find?_eq_none]
  intro x hx
  simp only [beq_iff_eq]
  rintro rfl
  exact h hx

theorem find?_beq_mem {pat : String} {L : List String} (h : pat ∈ L) :
    L.find? (fun v => v == pat) = some pat := by
  have h1 : (L.find? (fun v => v == pat)).isSome := by
    rw [List.find?_isSome]
    exact ⟨pat, h, by simp⟩
  obtain ⟨q, hq⟩ := Option.isSome_iff_exists.mp h1
  have hqp : q = pat := by simpa using List.find?_some hq
  rw [hqp] at hq
  exact hq

/-- The exact-match probe of `findBestMatch` yields nothing when the
original expression is a wildcard or the stripped expression is not a
catalog member. -/
theorem exact_probe_none {e : String} {L : List String}
    (h : isWildcardVersion (trimPfx e "v") = true ∨ stripWildcard (trimPfx e "v") ∉ L) :
    (if isWildcardVersion (trimPfx e "v") then none
     else L.find? (fun v => v == stripWildcard (trimPfx e "v"))) = none := by
  rcases h with hw | hmem
  · rw [hw]
    simp
  · cases hw2 : isWildcardVersion (trimPfx e "v")
    · simpa using find?_beq_none hmem
    · simp

/-- Zeta-reduced unfolding of `findBestMatch`. -/
theorem findBestMatch_eq (expr : String) (L : List String) :
    findBestMatch expr L =
      match (if isWildcardVersion (trimPfx expr "v") then none
             else L.find? (fun v => v == stripWildcard (trimPfx expr "v"))) with
      | some v => Except.ok v
      | none =>
        match sortDesc (candidatesOf (stripWildcard (trimPfx expr "v")) L) with
        | [] =>
          if looksLikePartialVersion (trimPfx expr "v")
              || isWildcardVersion (trimPfx expr "v") then
            Except.error (noMatchMsg (trimPfx expr "v"))
          else Except.ok (stripWildcard (trimPfx expr "v"))
        | best :: _ => Except.ok best := rfl

/-- Claim C2 (corrected): with no candidate match, `findBestMatch`
returns the NotFound error exactly when the v-stripped expression is a
wildcard or has exactly two dot-separated components; a single bare
component or a fully dotted (three or more components) non-wildcard
expression passes through as the stripped literal. -/
theorem C2_claim (e : String) (L : List String)
    (hv : trimPfx (trimPfx e "v") "v" = trimPfx e "v")
    (hnoexact : stripWildcard (trimPfx e "v") ∉ L)
    (hnone : candidatesOf (stripWildcard (trimPfx e "v")) L = []) :
    ((isWildcardVersion (trimPfx e "v") = true ∨ (goSplitDot (trimPfx e "v")).length = 2) →
        findBestMatch e L = Except.error (noMatchMsg (trimPfx e "v")))
    ∧ (isWildcardVersion (trimPfx e "v") = false → (goSplitDot (trimPfx e "v")).length ≠ 2 →
        findBestMatch e L = Except.ok (stripWildcard (trimPfx e "v"))) := by
  have hprobe : (if isWildcardVersion (trimPfx e "v") then none
      else L.find? (fun v => v == stripWildcard (trimPfx e "v"))) = none :=
    exact_probe_none (Or.inr hnoexact)
  have hlook := looksLike_eq (trimPfx e "v")
  rw [hv] at hlook
  constructor
  · intro hcase
    rw [findBestMatch_eq, hprobe, hnone]
    simp only [sortDesc]
    have hcond : (looksLikePartialVersion (trimPfx e "v")
        || isWildcardVersion (trimPfx e "v")) = true := by
      rcases hcase with hw | hlen
      · simp [hw]
      · simp [hlook, hlen]
    rw [hcond]
    simp
  · intro hw hlen
    rw [findBestMatch_eq, hprobe, hnone]
    simp only [sortDesc]
    have hcond : (looksLikePartialVersion (trimPfx e "v")
        || isWildcardVersion (trimPfx e "v")) = false := by
      simp only [hlook, hw, Bool.or_false, Bool.false_or]
      simpa using hlen
    rw [hcond]
    simp

/-- Claim C2, counterexample: "1.2.3" has three dot-separated
components and no match in the catalog ["9.9.9"], yet `findBestMatch`
passes it through instead of returning the NotFound error the claim
requires for a 3-component expression. -/
theorem C2_counterexample :
    (goSplitDot "1.2.3").length = 3 ∧ isWildcardVersion "1.2.3" = false ∧
    candidatesOf "1.2.3" ["9.9.9"] = [] ∧
    findBestMatch "1.2.3" ["9.9.9"] = Except.ok "1.2.3" :=
  ⟨rfl, rfl, rfl, rfl⟩

/-- Claim C2, witness: "2.13" (two components, no match) fails hard,
while "99" (single bare component, no match) passes through. -/
theorem C2_witness :
    findBestMatch "2.13" ["9.9.9"] = Except.error (noMatchMsg "2.13") ∧
    findBestMatch "99" ["20.10.0", "18.19.0"] = Except.ok "99" := by
  constructor
  · exact (C2_claim "2.13" ["9.9.9"] rfl (by decide) rfl).1 (Or.inr rfl)
  · exact (C2_claim "99" ["20.10.0", "18.19.0"] rfl (by decide) rfl).2 rfl (by decide)

/-- Claim C3 (confirmed): an exact catalog member that is not a
wildcard resolves to itself; the exact match short-circuits prefix,
major-only and highest-version selection. -/
theorem C3_claim (e : String) (L : List String)
    (hmem : trimPfx e "v" ∈ L)
    (hw : isWildcardVersion (trimPfx e "v") = false) :
    findBestMatch e L = Except.ok (trimPfx e "v") := by
  have hs : stripWildcard (trimPfx e "v") = trimPfx e "v" := stripWildcard_of_not_wildcard hw
  rw [findBestMatch_eq, hs, hw]
  simp only [Bool.false_eq_true, if_false]
  rw [find?_beq_mem hmem]

/-- Claim C3, witness: a member of the Go test catalog resolves to
itself. -/
theorem C3_witness :
    findBestMatch "20.9.0" ["20.10.0", "20.9.0", "18.19.0"] = Except.ok "20.9.0" :=
  C3_claim "20.9.0" ["20.10.0", "20.9.0", "18.19.0"] (by decide) rfl

/-- Claim C4 (corrected): when the exact-match probe cannot fire (the
expression is a wildcard, or its stripped form is not itself a catalog
member) and the candidate set is non-empty, `findBestMatch` returns a
candidate that is greatest under the dotted-numeric comparison
`compareVersions`. -/
theorem C4_claim (e : String) (L : List String)
    (hexact : isWildcardVersion (trimPfx e "v") = true ∨ stripWildcard (trimPfx e "v") ∉ L)
    (hne : candidatesOf (stripWildcard (trimPfx e "v")) L ≠ []) :
    ∃ best, findBestMatch e L = Except.ok best ∧
      best ∈ candidatesOf (stripWildcard (trimPfx e "v")) L ∧
      ∀ x ∈ candidatesOf (stripWildcard (trimPfx e "v")) L, 0 ≤ compareVersions best x := by
  have hprobe := exact_probe_none hexact
  cases hsort : sortDesc (candidatesOf (stripWildcard (trimPfx e "v")) L) with
  | nil => exact absurd (sortDesc_eq_nil _ hsort) hne
  | cons best rest =>
    obtain ⟨hmemb, hmax⟩ := sortDesc_head _ _ _ hsort
    refine ⟨best, ?_, hmemb, ?_⟩
    · rw [findBestMatch_eq, hprobe, hsort]
    · intro x hx
      have := hmax x hx
      simpa [vGe] using this

/-- Claim C4, counterexample: with the expression itself in the
catalog next to a numerically greater candidate, the exact match
short-circuits and the greatest candidate is not returned. -/
theorem C4_counterexample :
    findBestMatch "20" ["20", "20.10.0"] = Except.ok "20" ∧
    "20.10.0" ∈ candidatesOf "20" ["20", "20.10.0"] ∧
    compareVersions "20" "20.10.0" < 0 :=
  ⟨rfl, by decide, by decide⟩

/-- Claim C4, witness: the spec example resolves "20" to "20.10.0",
the dotted-numeric maximum, not the lexicographic one. -/
theorem C4_witness :
    ∃ best, findBestMatch "20" ["20.10.0", "20.9.0", "18.19.0"] = Except.ok best ∧
      best ∈ candidatesOf "20" ["20.10.0", "20.9.0", "18.19.0"] ∧
      ∀ x ∈ candidatesOf "20" ["20.10.0", "20.9.0", "18.19.0"], 0 ≤ compareVersions best x :=
  C4_claim "20" ["20.10.0", "20.9.0", "18.19.0"] (Or.inr (by decide)) (by decide)

/-- Claim C5 (corrected): resolving a wildcard form and resolving its
stripped base agree whenever the base is not itself a catalog member
and the wildcard resolution succeeds. -/
theorem C5_claim (e p : String) (L : List String)
    (hwe : isWildcardVersion e = true)
    (hve : trimPfx e "v" = e)
    (hsw : stripWildcard e = p)
    (hvp : trimPfx p "v" = p)
    (hwp : isWildcardVersion p = false)
    (hmem : p ∉ L)
    (hok : ∃ r, findBestMatch e L = Except.ok r) :
    findBestMatch e L = findBestMatch p L := by
  have hse : stripWildcard (trimPfx e "v") = p := by rw [hve, hsw]
  have hsp : stripWildcard (trimPfx p "v") = p := by
    rw [hvp]
    exact stripWildcard_of_not_wildcard hwp
  have hprobe_e : (if isWildcardVersion (trimPfx e "v") then none
      else L.find? (fun v => v == stripWildcard (trimPfx e "v"))) = none := by
    rw [hve, hwe]
    simp
  have hprobe_p : (if isWildcardVersion (trimPfx p "v") then none
      else L.find? (fun v => v == stripWildcard (trimPfx p "v"))) = none := by
    rw [hsp, hvp, hwp]
    simpa using find?_beq_none hmem
  cases hsort : sortDesc (candidatesOf p L) with
  | nil =>
    exfalso
    obtain ⟨r, hr⟩ := hok
    rw [findBestMatch_eq, hprobe_e, hse, hsort] at hr
    rw [hve, hwe] at hr
    simp at hr
  | cons best rest =>
    rw [findBestMatch_eq e, findBestMatch_eq p, hprobe_e, hprobe_p, hse, hsp, hsort]

/-- Claim C5, counterexample: with the bare prefix itself in the
catalog, the wildcard form resolves past it to the greater candidate
while the bare form exact-matches, so the two calls disagree even
though both succeed. -/
theorem C5_counterexample :
    findBestMatch "2.13.x" ["2.13", "2.13.5"] = Except.ok "2.13.5" ∧
    findBestMatch "2.13" ["2.13", "2.13.5"] = Except.ok "2.13" ∧
    ("2.13.5" : String) ≠ "2.13" :=
  ⟨rfl, rfl, by decide⟩

/-- Claim C5, witness: on the Go test catalog (which does not contain
the bare prefix) the wildcard and bare forms resolve identically. -/
theorem C5_witness :
    findBestMatch "2.13.x" ["2.13.18", "2.13.12", "2.12.19"]
      = findBestMatch "2.13" ["2.13.18", "2.13.12", "2.12.19"] :=
  C5_claim "2.13.x" "2.13" ["2.13.18", "2.13.12", "2.12.19"]
    rfl rfl rfl rfl rfl (by decide) ⟨"2.13.18", rfl⟩

/-! ### Artifact fetcher and retry policy (internal/version/download.go) -/

/-- Outcome of one `downloadOnce` attempt: success carries the SHA-256
hex digest of the bytes now at the destination path; failure carries
the error text and the destination-file state the attempt left behind
(`none` when no file exists). -/
inductive AttemptOutcome where
  | ok (digest : String)
  | err (msg : String) (fileAfter : Option String)

/-- `isNonRetryableError` from download.go: HTTP 4xx (detected on the
error text) is fatal except 408 and 429; everything else is
retryable. -/
def isNonRetryableError (msg : String) : Bool :=
  if containsStr msg "HTTP 4" then
    if containsStr msg "HTTP 408" || containsStr msg "HTTP 429" then false
    else true
  else false

/-- The digest comparison of `verifyChecksum` from download.go: the
computed digest and the expected one are equal after lowercasing both
and trimming surrounding whitespace from the expected one. -/
def verifyChecksum (actual expected : String) : Bool :=
  toLowerStr actual == toLowerStr (trimStr expected)

/-- The wrapping error of `DownloadWithRetry`:
`download failed after %d attempts: %w` with `maxRetries + 1`. -/
def wrapAttemptsMsg (maxRetries : Nat) (lastErr : String) : String :=
  "download failed after " ++ toString (maxRetries + 1) ++ " attempts: " ++ lastErr

/-- The `checksum mismatch` error of `verifyChecksum`, on the
normalised digests. -/
def mismatchMsg (expected actual : String) : String :=
  "checksum mismatch: expected " ++ toLowerStr (trimStr expected) ++ ", got " ++ toLowerStr actual

/-- The attempt loop of `DownloadWithRetry` from download.go.
`i` is the current attempt index, `fuel` the number of loop
iterations left (`maxRetries + 1` at the start), `lastErr` the last
recorded error text and `file` the digest of the destination file
(`none` when absent).  A successful attempt with a digest mismatch
deletes the file (`os.Remove`) and continues; a failed attempt stops
when `isNonRetryableError` holds and otherwise continues; loop exit
wraps the last error with the attempt count.  Returns the number of
attempts performed, the final destination-file state, and either the
wrapped error or the retry count of the successful attempt. -/
def retryGo (attempt : Nat → AttemptOutcome) (expected : String) (maxRetries : Nat) :
    Nat → Nat → String → Option String → Nat × Option String × Except String Nat
  | i, 0, lastErr, file => (i, file, Except.error (wrapAttemptsMsg maxRetries lastErr))
  | i, fuel + 1, _lastErr, _file =>
    match attempt i with
    | AttemptOutcome.ok d =>
      if expected != "" && !(verifyChecksum d expected) then
        retryGo attempt expected maxRetries (i + 1) fuel (mismatchMsg expected d) none
      else (i + 1, some d, Except.ok i)
    | AttemptOutcome.err m fileAfter =>
      if isNonRetryableError m then
        (i + 1, fileAfter, Except.error (wrapAttemptsMsg maxRetries m))
      else retryGo attempt expected maxRetries (i + 1) fuel m fileAfter

/-- `DownloadWithRetry` from download.go, abstracted over the attempt
oracle: run the loop from attempt 0 with `maxRetries + 1` iterations
available, an empty last error, and the given initial destination-file
state. -/
def downloadWithRetry (maxRetries : Nat) (expected : String)
    (attempt : Nat → AttemptOutcome) (initialFile : Option String) :
    Nat × Option String × Except String Nat :=
  retryGo attempt expected maxRetries 0 (maxRetries + 1) "" initialFile

theorem retry_exhaust_err (msgs : Nat → String) (files : Nat → Option String)
    (hr : ∀ j, isNonRetryableError (msgs j) = false)
    (expected : String) (maxRetries : Nat) :
    ∀ fuel i lastErr file, 1 ≤ fuel →
      retryGo (fun j => AttemptOutcome.err (msgs j) (files j)) expected maxRetries i fuel lastErr file
        = (i + fuel, files (i + fuel - 1),
           Except.error (wrapAttemptsMsg maxRetries (msgs (i + fuel - 1)))) := by
  intro fuel
  induction fuel with
  | zero => intro i lastErr file h; omega
  | succ n ih =>
    intro i lastErr file _
    simp only [retryGo]
    rw [hr i]
    simp only [Bool.false_eq_true, if_false]
    cases n with
    | zero =>
      simp [retryGo]
    | succ m =>
      rw [ih (i + 1) (msgs i) (files i) (by omega)]
      have e1 : i + 1 + (m + 1) = i + (m + 1 + 1) := by omega
      rw [e1]

theorem retry_exhaust_mismatch (ds : Nat → String) (expected : String)
    (he : (expected != "") = true)
    (hm : ∀ j, verifyChecksum (ds j) expected = false)
    (maxRetries : Nat) :
    ∀ fuel i lastErr file, 1 ≤ fuel →
      retryGo (fun j => AttemptOutcome.ok (ds j)) expected maxRetries i fuel lastErr file
        = (i + fuel, none,
           Except.error (wrapAttemptsMsg maxRetries (mismatchMsg expected (ds (i + fuel - 1))))) := by
  intro fuel
  induction fuel with
  | zero => intro i lastErr file h; omega
  | succ n ih =>
    intro i lastErr file _
    simp only [retryGo]
    rw [hm i, he]
    simp only [Bool.not_false, Bool.and_true, if_true]
    cases n with
    | zero =>
      simp [retryGo]
    | succ m =>
      rw [ih (i + 1) (mismatchMsg expected (ds i)) none (by omega)]
      have e1 : i + 1 + (m + 1) = i + (m + 1 + 1) := by omega
      rw [e1]

theorem dropWhile_map_lower : ∀ l : List Char,
    (l.map lowerChar).dropWhile isSpaceChar = (l.dropWhile isSpaceChar).map lowerChar := by
  intro l
  induction l with
  | nil => simp
  | cons a t ih =>
    simp only [List.map_cons, List.dropWhile_cons, isSpaceChar_lowerChar]
    by_cases h : isSpaceChar a = true
    · simp [h, ih]
    · simp only [h]
      simp at h
      simp [h]

theorem trimStr_toLowerStr (e : String) : trimStr (toLowerStr e) = toLowerStr (trimStr e) := by
  unfold trimStr toLowerStr
  rw [show (String.mk (e.data.map lowerChar)).data = e.data.map lowerChar from rfl,
      dropWhile_map_lower, ← List.map_reverse, dropWhile_map_lower, ← List.map_reverse]

theorem trimStr_cons_space {c : Char} (hc : isSpaceChar c = true) (e : String) :
    trimStr (String.mk (c :: e.data)) = trimStr e := by
  unfold trimStr
  rw [show (String.mk (c :: e.data)).data = c :: e.data from rfl,
      List.dropWhile_cons, if_pos hc]

theorem trimStr_append_space {c : Char} (hc : isSpaceChar c = true) (e : String) :
    trimStr (String.mk (e.data ++ [c])) = trimStr e := by
  unfold trimStr
  rw [show (String.mk (e.data ++ [c])).data = e.data ++ [c] from rfl,
      List.dropWhile_append]
  by_cases h : (e.data.dropWhile isSpaceChar).isEmpty = true
  · rw [if_pos h]
    have he : e.data.dropWhile isSpaceChar = [] := by
      cases hd : e.data.dropWhile isSpaceChar
      · rfl
      · rw [hd] at h; simp at h
    rw [he]
    simp [List.dropWhile_cons, hc]
  · rw [if_neg h, List.reverse_append]
    simp only [List.reverse_cons, List.reverse_nil, List.nil_append, List.singleton_append,
      List.dropWhile_cons, hc, if_pos]

/-- Claim C6 (confirmed): a download whose every attempt fails with a
retryable error performs exactly `maxRetries + 1` attempts and then
surfaces the last error wrapped with the attempt count; an HTTP 404
is non-retryable and stops after exactly one attempt, while HTTP 500,
408 and 429 are retryable (so a 408/429 server also sees
`maxRetries + 1` attempts). -/
theorem C6_claim (n : Nat) (msgs : Nat → String) (files : Nat → Option String)
    (hr : ∀ j, isNonRetryableError (msgs j) = false) :
    downloadWithRetry n "" (fun j => AttemptOutcome.err (msgs j) (files j)) none
        = (n + 1, files n, Except.error (wrapAttemptsMsg n (msgs n)))
    ∧ (∀ f0 g0 : Option String,
        downloadWithRetry n "" (fun _ => AttemptOutcome.err "HTTP 404" g0) f0
          = (1, g0, Except.error (wrapAttemptsMsg n "HTTP 404")))
    ∧ isNonRetryableError "HTTP 404" = true
    ∧ isNonRetryableError "HTTP 500" = false
    ∧ isNonRetryableError "HTTP 408" = false
    ∧ isNonRetryableError "HTTP 429" = false
    ∧ downloadWithRetry n "" (fun _ => AttemptOutcome.err "HTTP 408" none) none
        = (n + 1, none, Except.error (wrapAttemptsMsg n "HTTP 408")) := by
  refine ⟨?_, ?_, rfl, rfl, rfl, rfl, ?_⟩
  · have h := retry_exhaust_err msgs files hr "" n (n + 1) 0 "" none (by omega)
    simpa using h
  · intro f0 g0
    unfold downloadWithRetry
    simp only [retryGo]
    rw [show isNonRetryableError "HTTP 404" = true from rfl]
    simp
  · have h := retry_exhaust_err (fun _ => "HTTP 408") (fun _ => none)
      (fun _ => rfl) "" n (n + 1) 0 "" none (by omega)
    simpa using h

/-- Claim C6, witness: a server that always answers HTTP 500 with
`maxRetries = 2` produces exactly 3 attempts and the wrapped error. -/
theorem C6_witness :
    downloadWithRetry 2 "" (fun _ => AttemptOutcome.err "HTTP 500" none) none
      = (3, none, Except.error "download failed after 3 attempts: HTTP 500")
    ∧ downloadWithRetry 2 "" (fun _ => AttemptOutcome.err "HTTP 404" none) none
      = (1, none, Except.error "download failed after 3 attempts: HTTP 404") := by
  constructor
  · exact ((C6_claim 2 (fun _ => "HTTP 500") (fun _ => none) (fun _ => rfl)).1).trans (by rfl)
  · exact (((C6_claim 2 (fun _ => "HTTP 500") (fun _ => none) (fun _ => rfl)).2).1
      none none).trans (by rfl)

/-- Claim C7 (confirmed): the digest comparison ignores surrounding
whitespace on the expected digest and the case of the computed digest
(and lowercasing the expected digest does not change the outcome
either); a checksum mismatch deletes the destination file and is
retried: with a mismatching first attempt and a matching second one
the download succeeds on attempt index 1, and when every attempt
mismatches the loop exhausts all `maxRetries + 1` attempts and ends
with the file deleted and the mismatch error wrapped. -/
theorem C7_claim :
    (∀ (a e : String) (c : Char), isSpaceChar c = true →
        verifyChecksum a (String.mk (c :: e.data)) = verifyChecksum a e
      ∧ verifyChecksum a (String.mk (e.data ++ [c])) = verifyChecksum a e)
    ∧ (∀ a e : String, verifyChecksum (toLowerStr a) e = verifyChecksum a e)
    ∧ (∀ a e : String, verifyChecksum a (toLowerStr e) = verifyChecksum a e)
    ∧ (∀ (n : Nat) (expected : String) (att : Nat → AttemptOutcome) (d0 d1 : String)
        (f0 : Option String), expected ≠ "" → 1 ≤ n →
        att 0 = AttemptOutcome.ok d0 → verifyChecksum d0 expected = false →
        att 1 = AttemptOutcome.ok d1 → verifyChecksum d1 expected = true →
        downloadWithRetry n expected att f0 = (2, some d1, Except.ok 1))
    ∧ (∀ (n : Nat) (expected : String) (ds : Nat → String), expected ≠ "" →
        (∀ j, verifyChecksum (ds j) expected = false) →
        downloadWithRetry n expected (fun j => AttemptOutcome.ok (ds j)) none
          = (n + 1, none, Except.error (wrapAttemptsMsg n (mismatchMsg expected (ds n))))) := by
  refine ⟨?_, ?_, ?_, ?_, ?_⟩
  · intro a e c hc
    unfold verifyChecksum
    rw [trimStr_cons_space hc, trimStr_append_space hc]
    exact ⟨rfl, rfl⟩
  · intro a e
    unfold verifyChecksum
    rw [toLowerStr_idem]
  · intro a e
    unfold verifyChecksum
    rw [trimStr_toLowerStr, toLowerStr_idem]
  · intro n expected att d0 d1 f0 hne hn h0 hv0 h1 hv1
    obtain ⟨m, rfl⟩ := Nat.exists_eq_add_of_le hn
    have hne' : (expected != "") = true := by simpa using hne
    unfold downloadWithRetry
    simp [retryGo, h0, h1, hv0, hv1, hne']
    rw [Nat.add_comm 1 m]
    simp [retryGo, h1, hv1, hne']
  · intro n expected ds hne hm
    have hne' : (expected != "") = true := by simpa using hne
    have h := retry_exhaust_mismatch ds expected hne' hm n (n + 1) 0 "" none (by omega)
    simpa using h

/-- Claim C7, witness: a first download with digest "eee" fails the
case-insensitive whitespace-trimmed comparison against "  ABC1  ", the
file is deleted and a second attempt with digest "abc1" succeeds. -/
theorem C7_witness :
    downloadWithRetry 3 "  ABC1  "
      (fun j => if j = 0 then AttemptOutcome.ok "eee" else AttemptOutcome.ok "abc1")
      none = (2, some "abc1", Except.ok 1) :=
  (C7_claim.2.2.2.1) 3 "  ABC1  "
    (fun j => if j = 0 then AttemptOutcome.ok "eee" else AttemptOutcome.ok "abc1")
    "eee" "abc1" none (by decide) (by omega) rfl (by rfl) rfl (by rfl)

/-! ### Install (internal/version/detect.go, Manager.InstallWithDist / Install) -/

/-- Environment of one `InstallWithDist` run: which of its fallible
steps succeed.  `Install` delegates to `InstallWithDist` with an empty
distribution, so the same model covers both.  Error texts of the
operating system and transport are abstracted to fixed strings, one
per failure site. -/
structure InstallEnv where
  knownLang : Bool
  validVersion : Bool
  alreadyInstalled : Bool
  urlOk : Bool
  mkdirOk : Bool
  downloadTypeFile : Bool
  tmpCreateOk : Bool
  httpGetOk : Bool
  statusCode : Nat
  createFileOk : Bool
  copyOk : Bool
  extractOk : Bool
  postInstallOk : Bool

/-- The shared tail of `InstallWithDist` after a successful download:
run `lang.PostInstall` and return; a post-install failure returns the
wrapped error without removing the version directory. -/
def installFinish (env : InstallEnv) : Bool × Except String Unit :=
  if !env.postInstallOk then (true, Except.error "post-install failed")
  else (true, Except.ok ())

/-- `InstallWithDist` from detect.go, as a function from the step
environment to (does the version directory exist at return, result).
Every failure after `os.MkdirAll` calls `os.RemoveAll(versionPath)`
before returning, except the post-install failure in
`installFinish`. -/
def installWithDist (env : InstallEnv) : Bool × Except String Unit :=
  if !env.knownLang then (env.alreadyInstalled, Except.error "unknown language")
  else if !env.validVersion then (env.alreadyInstalled, Except.error "invalid version format")
  else if env.alreadyInstalled then (true, Except.error "version already installed")
  else if !env.urlOk then (false, Except.error "failed to get download URL")
  else if !env.mkdirOk then (false, Except.error "mkdir failed")
  else if env.downloadTypeFile then
    if !env.httpGetOk then (false, Except.error "download failed")
    else if env.statusCode ≠ 200 then (false, Except.error "download failed: bad HTTP status")
    else if !env.createFileOk then (false, Except.error "failed to create file")
    else if !env.copyOk then (false, Except.error "download failed: copy")
    else installFinish env
  else
    if !env.tmpCreateOk then (false, Except.error "create temp failed")
    else if !env.httpGetOk then (false, Except.error "download failed")
    else if env.statusCode ≠ 200 then (false, Except.error "download failed: bad HTTP status")
    else if !env.copyOk then (false, Except.error "download failed: copy")
    else if !env.extractOk then (false, Except.error "extraction failed")
    else installFinish env

/-- Does the run reach and pass `os.MkdirAll(versionPath)`, i.e. was
the version directory created by this install? -/
def dirCreatedDuring (env : InstallEnv) : Bool :=
  env.knownLang && env.validVersion && !env.alreadyInstalled && env.urlOk && env.mkdirOk

set_option maxHeartbeats 1000000 in
/-- Claim C1 (corrected): once the version directory has been created,
every fatal error removes it before returning, except a post-install
failure, which returns its error with the directory still present (so
a later ListInstalled would report the incomplete install). -/
theorem C1_claim (env : InstallEnv) (hdir : dirCreatedDuring env = true)
    (msg : String) (hmsg : (installWithDist env).2 = Except.error msg) :
    (installWithDist env).1 = true ↔ msg = "post-install failed" := by
  obtain ⟨kl, vv, ai, uo, mk, dtf, tc, hg, sc, cf, co, ex, pi⟩ := env
  simp only [dirCreatedDuring, Bool.and_eq_true, Bool.not_eq_true'] at hdir
  obtain ⟨⟨⟨⟨hkl, hvv⟩, hai⟩, huo⟩, hmk⟩ := hdir
  subst hkl hvv hai huo hmk
  simp only [installWithDist, installFinish, Bool.not_true, Bool.not_false,
    Bool.false_eq_true, if_false, if_true] at hmsg ⊢
  split_ifs at hmsg ⊢ <;>
    simp only [Except.error.injEq, Except.ok.injEq] at hmsg <;>
    subst hmsg <;> simp

set_option maxHeartbeats 1000000 in
/-- Claim C1, counterexample: a run in which everything succeeds
except `lang.PostInstall` returns an error while leaving the version
directory in place. -/
theorem C1_counterexample :
    dirCreatedDuring ⟨true, true, false, true, true, false, true, true, 200, true, true, true, false⟩
      = true ∧
    installWithDist ⟨true, true, false, true, true, false, true, true, 200, true, true, true, false⟩
      = (true, Except.error "post-install failed") :=
  ⟨rfl, rfl⟩

set_option maxHeartbeats 1000000 in
/-- Claim C1, witness: an extraction failure after directory creation
removes the directory, so its error is not the post-install one. -/
theorem C1_witness :
    ((installWithDist ⟨true, true, false, true, true, false, true, true, 200, true, true, false, true⟩).1 = true
      ↔ ("extraction failed" : String) = "post-install failed") :=
  C1_claim ⟨true, true, false, true, true, false, true, true, 200, true, true, false, true⟩
    rfl "extraction failed" rfl

/-! ### Activation (internal/version/detect.go, Manager.Use / GetCurrent) -/

/-- Mutable activation state of one tool: the `current` alias (the
version directory it points at, `none` when absent) and the persisted
`CurrentVersion` record of the config file. -/
structure ActivationState where
  currentAlias : Option String
  configRecord : Option String

/-- Environment of one `Use` run: which of its fallible steps
succeed. -/
structure UseEnv where
  knownLang : Bool
  versionExists : Bool
  junctionOk : Bool
  saveOk : Bool

/-- `Use` from detect.go: look the language up, check the version
directory exists, then remove the old alias, create the new junction
or symlink, and persist the version in the config record.  The
dependency warning, the shim creation and the Windows JAVA_HOME hints
print or touch other state only and are omitted; the config record is
modelled as the persisted value, so it changes only when the save
succeeds. -/
def useVersion (env : UseEnv) (langName ver : String) (s : ActivationState) :
    ActivationState × Except String Unit :=
  if !env.knownLang then (s, Except.error ("unknown language: " ++ langName))
  else if !env.versionExists then
    (s, Except.error ("version " ++ ver ++ " not installed for " ++ langName))
  else
    let s1 : ActivationState := { s with currentAlias := none }
    if !env.junctionOk then (s1, Except.error "failed to create junction")
    else
      let s2 : ActivationState := { s1 with currentAlias := some ver }
      if !env.saveOk then (s2, Except.error "failed to save config")
      else ({ s2 with configRecord := some ver }, Except.ok ())

theorem containsSub_append (sub : List Char) : ∀ l1 l2 : List Char,
    sub.isPrefixOf l2 = true → containsSub sub (l1 ++ l2) = true := by
  intro l1
  induction l1 with
  | nil =>
    intro l2 h
    cases l2 with
    | nil =>
      rw [List.isPrefixOf_iff_prefix] at h
      have hs := List.prefix_nil.mp h
      subst hs
      rfl
    | cons a t => simp [containsSub, h]
  | cons a t ih =>
    intro l2 h
    simp [containsSub, ih l2 h]

/-- Claim C8 (confirmed): activating a version whose directory does
not exist fails with an error naming the missing version, and neither
the current alias nor the config record is touched: the state returned
is the state passed in. -/
theorem C8_claim (env : UseEnv) (langName ver : String) (s : ActivationState)
    (hk : env.knownLang = true) (hx : env.versionExists = false) :
    useVersion env langName ver s
      = (s, Except.error ("version " ++ ver ++ " not installed for " ++ langName))
    ∧ containsStr ("version " ++ ver ++ " not installed for " ++ langName) ver = true := by
  constructor
  · simp [useVersion, hk, hx]
  · unfold containsStr
    have hd : ("version " ++ ver ++ " not installed for " ++ langName).data
        = "version ".data ++ (ver.data ++ (" not installed for " ++ langName).data) := by
      simp [String.data_append, List.append_assoc]
    rw [hd]
    exact containsSub_append _ _ _
      (List.isPrefixOf_iff_prefix.mpr (List.prefix_append _ _))

/-- Claim C8, witness: activating the missing version "9" of "java"
leaves a concrete state untouched and returns the naming error. -/
theorem C8_witness :
    useVersion ⟨true, false, true, true⟩ "java" "9" ⟨some "17", some "17"⟩
      = (⟨some "17", some "17"⟩, Except.error ("version " ++ "9" ++ " not installed for " ++ "java"))
    ∧ containsStr ("version " ++ "9" ++ " not installed for " ++ "java") "9" = true :=
  C8_claim ⟨true, false, true, true⟩ "java" "9" ⟨some "17", some "17"⟩ rfl rfl

/-! ### Project detector (internal/version/detect.go, detectForLanguage) -/

/-- The inner walk of `detectForLanguage`: for one declaration-file
name, visit the start directory and then each parent up to the root
(the list is ordered nearest first) and return the first directory
index whose file yields a version.  Each directory is modelled as the
function `readVersionFile` induces on it: file name to the version it
yields (`none` for a missing file, an unreadable one, or an empty
parse result). -/
def walkUp (file : String) : List (String → Option String) → Option (Nat × String)
  | [] => none
  | d :: rest =>
    match d file with
    | some v => some (0, v)
    | none => (walkUp file rest).map (fun p => (p.1 + 1, p.2))

/-- `detectForLanguage` from detect.go: try each declaration-file name
in declared order; the first name whose walk finds a version anywhere
wins.  Returns the winning file name, the directory index it was found
at, and the version. -/
def detectForLanguage (files : List String) (dirs : List (String → Option String)) :
    Option (String × Nat × String) :=
  match files with
  | [] => none
  | f :: rest =>
    match walkUp f dirs with
    | some (i, v) => some (f, i, v)
    | none => detectForLanguage rest dirs

/-- Claim C9 (confirmed): detection walks file names in priority
order, each name through every ancestor; the first name that yields a
version anywhere wins (so a higher-priority name found farther away
beats a lower-priority name found closer), and for a single name the
nearest directory wins: the walk result is the least directory index
whose file yields a version. -/
theorem C9_claim :
    (∀ (f : String) (rest : List String) (dirs : List (String → Option String))
        (i : Nat) (v : String),
      walkUp f dirs = some (i, v) → detectForLanguage (f :: rest) dirs = some (f, i, v))
    ∧ (∀ (f : String) (d : String → Option String) (dirs : List (String → Option String))
        (v : String),
      d f = some v → walkUp f (d :: dirs) = some (0, v))
    ∧ (∀ (f : String) (dirs : List (String → Option String)) (i : Nat) (v : String),
      walkUp f dirs = some (i, v) →
        ∃ d, dirs.get? i = some d ∧ d f = some v ∧
          ∀ j, j < i → ∀ d', dirs.get? j = some d' → d' f = none) := by
  refine ⟨?_, ?_, ?_⟩
  · intro f rest dirs i v h
    simp [detectForLanguage, h]
  · intro f d dirs v h
    simp [walkUp, h]
  · intro f dirs
    induction dirs with
    | nil => intro i v h; simp [walkUp] at h
    | cons d dirs ih =>
      intro i v h
      simp only [walkUp] at h
      cases hd : d f with
      | some w =>
        rw [hd] at h
        simp only [Option.some.injEq, Prod.mk.injEq] at h
        obtain ⟨rfl, rfl⟩ := h
        exact ⟨d, rfl, hd, fun j hj _ _ => absurd hj (Nat.not_lt_zero j)⟩
      | none =>
        rw [hd] at h
        simp only [Option.map_eq_some'] at h
        obtain ⟨⟨i', v'⟩, hw, hpair⟩ := h
        simp only [Prod.mk.injEq] at hpair
        obtain ⟨rfl, rfl⟩ := hpair
        obtain ⟨d2, hd2, hdv, hmin⟩ := ih i' v' hw
        refine ⟨d2, by simpa using hd2, hdv, ?_⟩
        intro j hj d' hj'
        cases j with
        | zero =>
          simp only [List.get?] at hj'
          cases hj'
          exact hd
        | succ k =>
          exact hmin k (by omega) d' (by simpa using hj')

/-- Claim C9, witness: with file names ["a", "b"] in priority order,
"b" present in the nearest directory and "a" only in the parent,
detection still reports "a" from the parent; and a walk for a single
name stops at the nearest directory holding it. -/
theorem C9_witness :
    detectForLanguage ["a", "b"]
        [fun n => if n = "b" then some "w" else none,
         fun n => if n = "a" then some "v" else none]
      = some ("a", 1, "v")
    ∧ walkUp "b"
        [fun n => if n = "b" then some "w" else none,
         fun n => if n = "b" then some "u" else none]
      = some (0, "w") := by
  constructor
  · exact C9_claim.1 "a" ["b"]
      [fun n => if n = "b" then some "w" else none,
       fun n => if n = "a" then some "v" else none] 1 "v" (by rfl)
  · exact C9_claim.2.1 "b"
      (fun n => if n = "b" then some "w" else none)
      [fun n => if n = "b" then some "u" else none] "w" (by rfl)

/-! ### GetCurrent (internal/version/detect.go, Manager.GetCurrent) -/

/-- The per-language config record (internal/config/config.go). -/
structure LanguageConfig where
  currentVersion : String
  installPath : String

/-- `GetCurrent` from detect.go, abstracted over `filepath.Base`
(passed in as `base`) and the `os.Readlink` outcome: a readable alias
wins; otherwise the non-empty cached config version; otherwise the
empty string.  The second component is the returned error, always
`none`. -/
def getCurrent (base : String → String) (readlinkResult : Except String String)
    (langCfg : Option LanguageConfig) : String × Option String :=
  match readlinkResult with
  | Except.ok target => (base target, none)
  | Except.error _ =>
    match langCfg with
    | some cfg => if cfg.currentVersion ≠ "" then (cfg.currentVersion, none) else ("", none)
    | none => ("", none)

/-- Claim C10 (confirmed): `GetCurrent` never returns an error; when
the alias cannot be read it falls back to the cached config version,
and when that is absent or empty it returns the empty string with a
nil error, so the error value cannot distinguish "no active version"
from "alias unreadable". -/
theorem C10_claim :
    (∀ (base : String → String) (rl : Except String String) (cfg : Option LanguageConfig),
      (getCurrent base rl cfg).2 = none)
    ∧ (∀ (base : String → String) (t : String) (cfg : Option LanguageConfig),
      getCurrent base (Except.ok t) cfg = (base t, none))
    ∧ (∀ (base : String → String) (e : String),
      getCurrent base (Except.error e) none = ("", none))
    ∧ (∀ (base : String → String) (e : String) (c : LanguageConfig),
      c.currentVersion = "" → getCurrent base (Except.error e) (some c) = ("", none))
    ∧ (∀ (base : String → String) (e : String) (c : LanguageConfig),
      c.currentVersion ≠ "" →
        getCurrent base (Except.error e) (some c) = (c.currentVersion, none)) := by
  refine ⟨?_, ?_, ?_, ?_, ?_⟩
  · intro base rl cfg
    cases rl with
    | ok t => rfl
    | error e =>
      cases cfg with
      | none => rfl
      | some c =>
        simp only [getCurrent]
        split <;> rfl
  · intro base t cfg; rfl
  · intro base e; rfl
  · intro base e c h
    simp [getCurrent, h]
  · intro base e c h
    simp [getCurrent, h]

/-- Claim C10, witness: an unreadable alias with an empty config
record yields the empty version and a nil error, exactly as an
unreadable alias with a cached version yields that version with a nil
error. -/
theorem C10_witness :
    getCurrent (fun s => s) (Except.error "not a link") none = ("", none)
    ∧ getCurrent (fun s => s) (Except.error "not a link") (some ⟨"17", "java"⟩)
        = ("17", none) := by
  constructor
  · exact C10_claim.2.2.1 (fun s => s) "not a link"
  · exact C10_claim.2.2.2.2 (fun s => s) "not a link" ⟨"17", "java"⟩ (by decide)

end Verman
